import Mathlib

/-!
Verification of the terminal schedule renderer in
`src/pretalx/agenda/views/schedule.py` (class `ScheduleView`).

Python strings are modelled as `List Char` (`Str`); Python's machine-level
behaviours that the renderer relies on (slicing with possibly negative
bounds, `str.format` left-padding, `textwrap.wrap`, stable `sorted`) are
given explicit executable models below.
-/

abbrev Str := List Char

/-- Model of Python left-justified padding `f"{s:<{n}}"`: pads with spaces up
to width `n`, never truncates. -/
def pad (s : Str) (n : Nat) : Str := s ++ List.replicate (n - s.length) ' '

/-- Model of the Python slice `s[:n]` for an `Int` bound `n`: a nonnegative
bound keeps the first `n` characters, a negative bound drops the last `-n`
characters (clamped at zero). -/
def pyTakeI (n : Int) (s : Str) : Str :=
  if 0 ≤ n then s.take n.toNat else s.take (s.length - (-n).toNat)

/-- Model of Python `sep.join(parts)`. -/
def joinSep (sep : Str) : List Str → Str
  | [] => []
  | [x] => x
  | x :: y :: rest => x ++ sep ++ joinSep sep (y :: rest)

/-- ANSI control sequence `"\x1b[" + code + "m"` as it appears in the
renderer's f-strings. -/
def csi (code : Str) : Str := '\x1b' :: '[' :: (code ++ ['m'])

/-- Count of characters that a terminal displays: characters inside an ANSI
escape sequence (from `ESC` up to the closing `m`) are not counted. The
second argument tracks whether we are inside an escape sequence. -/
def visLenAux : Str → Bool → Nat
  | [], _ => 0
  | c :: rest, true => visLenAux rest (decide (c ≠ 'm'))
  | c :: rest, false =>
      if c = '\x1b' then visLenAux rest true else visLenAux rest false + 1

/-- Displayed width of a string containing ANSI escape sequences. -/
def visibleLen (s : Str) : Nat := visLenAux s false

/-- Predicate: the string contains no ANSI escape character, so its displayed
width is its length. -/
def noEsc (s : Str) : Prop := '\x1b' ∉ s

instance (s : Str) : Decidable (noEsc s) := by unfold noEsc; infer_instance

/-- Whitespace test used by the `textwrap.wrap` model. -/
def isSpaceCh (c : Char) : Bool := c = ' ' || c = '\n' || c = '\t' || c = '\r'

/-- Helper of `splitWords`: accumulates the current word. -/
def splitWordsAux : Str → Str → List Str
  | [], cur => if cur = [] then [] else [cur]
  | c :: rest, cur =>
      if isSpaceCh c then
        if cur = [] then splitWordsAux rest [] else cur :: splitWordsAux rest []
      else splitWordsAux rest (cur ++ [c])

/-- Split a string into whitespace-separated words (model of `str.split()`). -/
def splitWords (s : Str) : List Str := splitWordsAux s []

/-- Helper of `chunksOf`, structurally recursive on a fuel argument (which
`chunksOf` instantiates with the word length, enough to finish). -/
def chunksOfAux (w : Nat) : Nat → Str → List Str
  | 0, word => [word]
  | fuel + 1, word =>
      if w = 0 ∨ word.length ≤ w then [word]
      else word.take w :: chunksOfAux w fuel (word.drop w)

/-- Break a single word into pieces of at most `w` characters (model of
`textwrap`'s `break_long_words=True` behaviour). -/
def chunksOf (w : Nat) (word : Str) : List Str := chunksOfAux w word.length word

/-- Greedy line filling over already-chunked words; `cur` is the line being
assembled. -/
def fillLines (w : Nat) : List Str → Str → List Str
  | [], cur => if cur = [] then [] else [cur]
  | word :: rest, cur =>
      if cur = [] then fillLines w rest word
      else if cur.length + 1 + word.length ≤ w then
        fillLines w rest (cur ++ ' ' :: word)
      else cur :: fillLines w rest word

/-- Model of Python `textwrap.wrap(text, w)` (default options): split into
words, break words longer than `w`, then fill lines greedily. Returns `[]`
for whitespace-only input, and every produced line has at most `w`
characters (for `w ≥ 1`). -/
def pyWrap (w : Nat) (s : Str) : List Str :=
  fillLines w ((splitWords s).flatMap (chunksOf w)) []

/-- Truncation rule of `_card` (lines 328–334 of `schedule.py`): a string
longer than `limit` keeps `s[:limit-1]` and gains a single `…`; otherwise it
is unchanged. The `limit - 1` bound follows Python slice semantics, so at
`limit = 0` it drops the final character. -/
def pyTruncEllipsis (s : Str) (limit : Nat) : Str :=
  if limit < s.length then pyTakeI ((limit : Int) - 1) s ++ ['…'] else s

/-- Modelled from the spec: submission data attached to a talk (title,
display speaker names, 2-letter content locale). The submission model class
is not part of the excerpted sources. -/
structure Submission where
  title : Str
  display_speaker_names : Str
  content_locale : Str
deriving DecidableEq

/-- Modelled from the spec: a scheduled talk slot. Its model class is not in
the excerpted sources; per the spec a talk has an identifier, a start
instant, a duration in minutes, an optional submission (else it is a break
described by `description`), and an owning room. Instants are modelled as
minutes; the end instant is `start + duration`. -/
structure Talk where
  pk : Nat
  start : Nat
  duration : Nat
  submission : Option Submission
  description : Str
  roomName : Str
deriving DecidableEq

/-- Modelled from the spec: the end instant of a talk (`talk.real_end`,
equal to the start plus the duration in this model). -/
def Talk.real_end (t : Talk) : Nat := t.start + t.duration

/-- Modelled from the spec: a room with its name and its talks for one day
(`room["name"]`, `room["talks"]`). -/
structure Room where
  name : Str
  talks : List Talk
deriving DecidableEq

/-- Calendar date used only for the `%Y-%m-%d` header. -/
structure Date where
  year : Nat
  month : Nat
  day : Nat
deriving DecidableEq

/-- Modelled from the spec: one date bucket of the schedule data fed to the
renderer (`date["start"]`, optional `first_start` / `last_end`, rooms). -/
structure DateBucket where
  start : Date
  first_start : Option Nat
  last_end : Option Nat
  rooms : List Room
deriving DecidableEq

/-- Two-digit decimal rendering (for `%H`, `%M`, `%m`, `%d`). -/
def twoDigits (n : Nat) : Str := [Nat.digitChar (n / 10 % 10), Nat.digitChar (n % 10)]

/-- Four-digit decimal rendering (for `%Y`). -/
def fourDigits (n : Nat) : Str :=
  [Nat.digitChar (n / 1000 % 10), Nat.digitChar (n / 100 % 10),
   Nat.digitChar (n / 10 % 10), Nat.digitChar (n % 10)]

/-- Model of `"{:%H:%M}".format(instant)` for an instant in minutes. -/
def fmtHM (m : Nat) : Str := twoDigits (m / 60 % 24) ++ ':' :: twoDigits (m % 60)

/-- Model of `"{:%Y-%m-%d}".format(date)`. -/
def fmtDate (d : Date) : Str :=
  fourDigits d.year ++ '-' :: twoDigits d.month ++ '-' :: twoDigits d.day

/-- Height of a talk's card in grid rows, minus one: `talk.duration // 5 - 1`
(line 314). May be negative for very short talks, hence an `Int`. -/
def heightI (t : Talk) : Int := (t.duration / 5 : Nat) - 1

/-- Number of wrapped title lines the card keeps (line 317):
`1 if height <= 5 else height - 4`. -/
def maxTitleLines (h : Int) : Nat := (if h ≤ 5 then 1 else h - 4).toNat

/-- Title text used by the card (line 311): the submission title, else the
break description. -/
def cardTitleText (t : Talk) : Str :=
  match t.submission with
  | some s => s.title
  | none => t.description

/-- Title-truncation step of `_card` (lines 318–324): when the wrapped title
has more than `maxL` lines, keep the first `maxL`, append the remaining
words to the last kept line, hard-truncate it to `tw - 1` characters and add
an ellipsis. -/
def truncTitleLines (tw : Nat) (maxL : Nat) (tls : List Str) : List Str :=
  if maxL < tls.length then
    (tls.take maxL).dropLast
      ++ [pyTakeI ((tw : Nat) - 1 : Int)
            ((tls.take maxL).getLastD [] ++ ' ' :: joinSep [' '] (tls.drop maxL))
          ++ ['…']]
  else tls

/-- Title lines of the card for a talk at column width `w` (text width
`w - 4`, lines 309–324). -/
def cardTitleLines (t : Talk) (w : Nat) : List Str :=
  truncTitleLines (w - 4) (maxTitleLines (heightI t)) (pyWrap (w - 4) (cardTitleText t))

/-- Raw speaker string (line 328): the submission's display speaker names,
empty for a break. -/
def speakerRaw (t : Talk) : Str :=
  match t.submission with
  | some s => s.display_speaker_names
  | none => []

/-- Content locale of the talk's submission, empty for a break. -/
def localeOf (t : Talk) : Str :=
  match t.submission with
  | some s => s.content_locale
  | none => []

/-- Flag `join_speaker_and_locale` (line 327): speaker and locale share one
line when at most 3 rows remain under the title and the talk has a
submission. -/
def cardJoinSL (t : Talk) (w : Nat) : Bool :=
  decide (heightI t - (cardTitleLines t w).length ≤ 3) && t.submission.isSome

/-- Speaker truncation bound `cutoff` (line 329). -/
def cardCutoff (t : Talk) (w : Nat) : Nat :=
  if cardJoinSL t w then (w - 4) - 4 else w - 4

/-- Truncated speaker string `speaker_str` (lines 330–334). -/
def cardSpeaker (t : Talk) (w : Nat) : Str :=
  pyTruncEllipsis (speakerRaw t) (cardCutoff t w)

/-- Blank card line of a full column width (line 308). -/
def emptyLine (w : Nat) : Str := List.replicate w ' '

/-- Bold title card line (line 340): two spaces, bold title padded to the
text width, two spaces. -/
def boldLine (l : Str) (tw : Nat) : Str :=
  ("  ".data) ++ csi ("1".data) ++ pad l tw ++ csi ("0".data) ++ ("  ".data)

/-- Joined speaker-and-locale card line (lines 347–350). -/
def joinSpeakerLine (t : Talk) (tw : Nat) (speaker : Str) : Str :=
  ("  ".data) ++ csi ("33".data) ++ pad speaker (tw - 4) ++ csi ("0".data)
    ++ ("  ".data) ++ csi ("38;5;246".data) ++ pad (localeOf t) 2
    ++ csi ("0".data) ++ ("  ".data)

/-- Speaker-only card line (line 353). -/
def speakerLine (speaker : Str) (tw : Nat) : Str :=
  ("  ".data) ++ csi ("33".data) ++ pad speaker tw ++ csi ("0".data) ++ ("  ".data)

/-- Right-aligned locale card line (lines 358–360 and 363–365). -/
def localeLine (t : Talk) (tw : Nat) : Str :=
  List.replicate (tw - 2) ' ' ++ ("  ".data) ++ csi ("38;5;246".data)
    ++ localeOf t ++ csi ("0".data) ++ ("  ".data)

/-- Content lines of `_card` before the final blank-line padding
(lines 336–366): optional top margin, title lines, optional separator blank
line before the speaker block, then the speaker/locale block. -/
def cardContent (t : Talk) (w : Nat) : List Str :=
  (if 4 < heightI t then [emptyLine w] else [])
  ++ (cardTitleLines t w).map (fun l => boldLine l (w - 4))
  ++ (if 2 < heightI t - (cardTitleLines t w).length then [emptyLine w] else [])
  ++ (if cardSpeaker t w ≠ [] then
        (if cardJoinSL t w then [joinSpeakerLine t (w - 4) (cardSpeaker t w)]
         else [speakerLine (cardSpeaker t w) (w - 4)]
           ++ (if 4 < heightI t - (cardTitleLines t w).length then [emptyLine w] else [])
           ++ [localeLine t (w - 4)])
      else if t.submission.isSome then [localeLine t (w - 4)] else [])

/-- Model of the generator `ScheduleView._card(talk, col_width)`
(lines 306–368) as the finite list of all lines it yields: the content
lines, padded with blank lines `height - yielded_lines + 1` more times
(`itertools.repeat` yields nothing for a non-positive count). -/
def card (t : Talk) (w : Nat) : List Str :=
  cardContent t w
    ++ List.replicate (heightI t + 1 - (cardContent t w).length).toNat (emptyLine w)

/-- Insertion step of the stable-sort model: place `a` before the first
element `b` with `le a b`, i.e. after every element whose key is strictly
smaller-or-tied-later. -/
def pyInsert (le : α → α → Bool) (a : α) : List α → List α
  | [] => [a]
  | b :: bs => if le a b then a :: b :: bs else b :: pyInsert le a bs

/-- Model of Python's stable `sorted(xs, key=...)` as an insertion sort by a
boolean `le` relation: an element coming earlier in the input is placed
before later elements with an equal key. -/
def pySortBy (le : α → α → Bool) : List α → List α
  | [] => []
  | a :: as => pyInsert le a (pySortBy le as)

/-- Lexicographic string order by code point (model of Python `str` < / <=
comparison used inside tuple keys). -/
def strLe : Str → Str → Bool
  | [], _ => true
  | _ :: _, [] => false
  | a :: as, b :: bs =>
      if a.toNat < b.toNat then true
      else if b.toNat < a.toNat then false
      else strLe as bs

/-- Model of Python tuple comparison on a `(start, title)` key. -/
def pairLe (a b : Nat × Str) : Bool :=
  decide (a.1 < b.1) || (decide (a.1 = b.1) && strLe a.2 b.2)

/-- Comparison `lambda x: x.start` of `_get_text_list` (line 156), as the
ordering fed to the stable sort. -/
def startLe (a b : Talk) : Bool := decide (a.start ≤ b.start)

/-- Key `lambda x: (x.start, x.submission.title if x.submission else "")` of
`get_schedule_data_list` (line 534). -/
def listSortKey (t : Talk) : Nat × Str :=
  (t.start, match t.submission with
            | some s => s.title
            | none => [])

/-- Ordering induced by `listSortKey`. -/
def keyLe (a b : Talk) : Bool := pairLe (listSortKey a) (listSortKey b)

/-- All talks of a date bucket across its rooms, in room order
(`talk for room in date["rooms"] for talk in room.get("talks", [])`). -/
def allTalks (date : DateBucket) : List Talk := date.rooms.flatMap Room.talks

/-- Sorted talk list of `_get_text_list` / `_get_table_for_date`
(lines 153–157 and 188–191): stable sort by start instant only. -/
def talksByStart (date : DateBucket) : List Talk := pySortBy startLe (allTalks date)

/-- Per-talk line of `_get_text_list` (lines 161–171): tick-formatted start
time, then `"title, speakers (locale); in room\n"` for a talk with a
submission (empty speakers replaced by `"No speakers"`), or
`"description in room"` — with no trailing newline — for a break. -/
def listEntry (t : Talk) : Str :=
  ("* ".data) ++ csi ("33".data) ++ fmtHM t.start ++ csi ("0".data) ++ [' ']
  ++ (match t.submission with
      | some s =>
          s.title ++ (", ".data)
          ++ (if s.display_speaker_names = [] then ("No speakers".data)
              else s.display_speaker_names)
          ++ (" (".data) ++ s.content_locale ++ ("); in ".data)
          ++ t.roomName ++ ['\n']
      | none => t.description ++ (" in ".data) ++ t.roomName)

/-- Model of `ScheduleView._get_text_list(data)` (lines 150–174): for each
date with at least one talk, a date header then the concatenated entries of
the date's talks sorted (stably) by start instant. -/
def get_text_list (data : List DateBucket) : Str :=
  data.foldl
    (fun acc date =>
      if talksByStart date ≠ [] then
        acc ++ '\n' :: csi ("33".data) ++ fmtDate date.start ++ csi ("0".data)
          ++ '\n' :: ((talksByStart date).map listEntry).flatten
      else acc)
    []

/-- Rendering that follows the spec's words for the list renderer, for
comparison with `get_text_list`: identical except that the talks of a date
are sorted by the pair `(start, title-or-empty)`. -/
def get_text_list_byPair (data : List DateBucket) : Str :=
  data.foldl
    (fun acc date =>
      if pySortBy keyLe (allTalks date) ≠ [] then
        acc ++ '\n' :: csi ("33".data) ++ fmtDate date.start ++ csi ("0".data)
          ++ '\n' :: ((pySortBy keyLe (allTalks date)).map listEntry).flatten
      else acc)
    []

/-- Per-date talk list of `ScheduleView.get_schedule_data_list`
(lines 529–537): all talks across the date's rooms, stably sorted by
`(start, submission title or empty string)`. -/
def listDateTalks (date : DateBucket) : List Talk := pySortBy keyLe (allTalks date)

/-- Model of `ScheduleView.get_schedule_data_list(data)` (lines 529–537): it
replaces each date's rooms by the flattened, pair-key-sorted talk list. -/
def get_schedule_data_list (data : List DateBucket) : List (Date × List Talk) :=
  data.map (fun date => (date.start, listDateTalks date))

/-- Modelled from the spec: the box-drawing junction resolver
`get_separator` lives in `pretalx.common.console`, which is not part of the
excerpted sources. The spec leaves the exact 16-glyph table open (only a
fixed, pure table is required), so an arbitrary fixed table is used here;
no claim proved below depends on its values. -/
def get_separator (a b c d : Bool) : Char :=
  match a, b, c, d with
  | false, false, false, false => ' '
  | true, false, false, false => '┘'
  | false, true, false, false => '┐'
  | false, false, true, false => '┌'
  | false, false, false, true => '└'
  | true, true, false, false => '┤'
  | false, false, true, true => '├'
  | true, false, false, true => '┴'
  | false, true, true, false => '┬'
  | _, _, _, _ => '┼'

/-- Modelled from the spec: horizontal border character `LR` from
`pretalx.common.console`. -/
def LR : Char := '─'

/-- Modelled from the spec: vertical border character `UD` from
`pretalx.common.console`. -/
def UD : Char := '│'

/-- Model of `ScheduleView._get_line_parts` (lines 370–384): the boundary
fragment between two adjacent rooms. A running talk on one side combined
with a start/end event on the other forces a T-junction; otherwise any
start/end event consults the generic separator table
`get_separator(end2, start2, start1, end1)`; otherwise a running talk gives
the vertical border, else the fill character. -/
def get_line_parts (start1 start2 end1 end2 run1 run2 : Bool) (fill_char : Char) :
    List Str :=
  if run1 && (start2 || end2) then [['├']]
  else if run2 && (start1 || end1) then [['┤']]
  else if end2 || start2 || start1 || end1 then
    [[get_separator end2 start2 start1 end1]]
  else if run1 || run2 then [[UD]]
  else [[fill_char]]

/-- Header row of `_get_table_for_date` (line 200): the 8-space time gutter
plus `"| "`, then each room name left-padded to `col_width - 2`, joined by
`" | "`. -/
def headerLine (rooms : List Str) (w : Nat) : Str :=
  ("        | ".data) ++ joinSep (" | ".data) (rooms.map (fun r => pad r (w - 2)))

/-- Earliest start among the talks (`min(talk.start for talk in talk_list)`,
line 195). -/
def minStarts : List Talk → Nat
  | [] => 0
  | t :: ts => ts.foldl (fun m x => min m x.start) t.start

/-- Latest end among the talks (`max(talk.end for talk in talk_list)`,
line 196). -/
def maxEnds : List Talk → Nat
  | [] => 0
  | t :: ts => ts.foldl (fun m x => max m x.real_end) t.real_end

/-- Model of the 5-minute `rrule` time axis (lines 205–210): every instant
in `[a, b]` that lies on a 5-minute boundary. -/
def timeSlots (a b : Nat) : List Nat :=
  (List.range (b + 1)).filter (fun t => a ≤ t && t % 5 = 0)

/-- Keys of the Python dict `{str(r["name"]): r["talks"]}` (line 197) in
insertion order: first occurrence of each room name. -/
def pyDictKeys (l : List Str) : List Str :=
  l.foldl (fun acc n => if n ∈ acc then acc else acc ++ [n]) []

/-- Value lookup in that dict: for a duplicated room name the later entry
wins, as with repeated Python dict assignment. -/
def talksOf (rooms : List Room) (n : Str) : List Talk :=
  ((rooms.filter (fun r => r.name = n)).getLast?).elim [] Room.talks

/-- Lookup in `cards_by_id` (line 198), later entry winning. -/
def dictLast (l : List (Nat × List Str)) (k : Nat) : Option (List Str) :=
  ((l.filter (fun p => p.1 = k)).getLast?).map Prod.snd

/-- Talk starting exactly at `t` in a room's talk list (lines 211–214). -/
def startingAt (talks : List Talk) (t : Nat) : Option Talk :=
  talks.find? (fun e => e.start = t)

/-- Talk strictly running at `t` (lines 215–221): `start < t < real_end`. -/
def runningAt (talks : List Talk) (t : Nat) : Option Talk :=
  talks.find? (fun e => e.start < t && t < e.real_end)

/-- Talk ending exactly at `t` (lines 222–225). -/
def endingAt (talks : List Talk) (t : Nat) : Option Talk :=
  talks.find? (fun e => e.real_end = t)

/-- Current card line for a talk id: the card's line at the cursor position
recorded in `served` (the multiset of ids already advanced). Models the
per-talk generators of `cards_by_id`. -/
def nextCardLine (cards : List (Nat × List Str)) (served : List Nat) (pk : Nat) : Str :=
  ((dictLast cards pk).getD []).getD (served.count pk) []

/-- Middle cells of `_get_dt_line` (lines 270–289): for each adjacent room
pair, the boundary fragment from `_get_line_parts` followed by the right
room's content cell (next card line if running, horizontal rule if
starting/ending, else fill). Threads the card cursors through `served`. -/
def middleCells (cards : List (Nat × List Str)) (talksOfR : Str → List Talk)
    (t : Nat) (fill : Char) (w : Nat) :
    List (Str × Str) → List Nat → (List Str × List Nat)
  | [], served => ([], served)
  | (loc1, loc2) :: pairs, served =>
    let r1 := runningAt (talksOfR loc1) t
    let r2 := runningAt (talksOfR loc2) t
    let sep := get_line_parts (startingAt (talksOfR loc1) t).isSome
      (startingAt (talksOfR loc2) t).isSome (endingAt (talksOfR loc1) t).isSome
      (endingAt (talksOfR loc2) t).isSome r1.isSome r2.isSome fill
    let cell :=
      match r2 with
      | some e => (nextCardLine cards served e.pk, e.pk :: served)
      | none =>
        if (startingAt (talksOfR loc2) t).isSome || (endingAt (talksOfR loc2) t).isSome
        then (List.replicate w LR, served)
        else (List.replicate w fill, served)
    let rest := middleCells cards talksOfR t fill w pairs cell.2
    (sep ++ cell.1 :: rest.1, rest.2)

/-- Model of `ScheduleView._get_dt_line` (lines 240–304): one grid row at
instant `t` — time label (or blank gutter), left edge cell of the first
room, the middle cells, and the right edge cell of the last room. Returns
the row and the advanced card cursors. -/
def dtLine (cards : List (Nat × List Str)) (talksOfR : Str → List Talk)
    (t : Nat) (is_tick : Bool) (rooms : List Str) (w : Nat) (served : List Nat) :
    Str × List Nat :=
  let label := if is_tick then fmtHM t ++ (" --".data) else List.replicate 8 ' '
  let fill : Char := if is_tick then '-' else ' '
  match rooms with
  | [] => (label, served)
  | r0 :: rest =>
    let first :=
      if (startingAt (talksOfR r0) t).isSome || (endingAt (talksOfR r0) t).isSome then
        (get_separator (endingAt (talksOfR r0) t).isSome
          (startingAt (talksOfR r0) t).isSome false false :: List.replicate w LR,
         served)
      else
        match runningAt (talksOfR r0) t with
        | some e => (UD :: nextCardLine cards served e.pk, e.pk :: served)
        | none => (List.replicate (w + 1) fill, served)
    let middle := middleCells cards talksOfR t fill w ((r0 :: rest).zip rest) first.2
    let rl := rest.getLastD r0
    let lastCell :=
      if (startingAt (talksOfR rl) t).isSome || (endingAt (talksOfR rl) t).isSome then
        [get_separator false false (startingAt (talksOfR rl) t).isSome
          (endingAt (talksOfR rl) t).isSome]
      else if (runningAt (talksOfR rl) t).isSome then [UD]
      else [fill]
    (label ++ first.1 ++ middle.1.flatten ++ lastCell, middle.2)

/-- Lines of the grid for one date (lines 187–238): the header row, then one
row per 5-minute slot between the date's global start and end, threading the
per-talk card cursors. -/
def tableLines (date : DateBucket) (w : Nat) : List Str :=
  let talk_list := talksByStart date
  let global_start := date.first_start.getD (minStarts talk_list)
  let global_end := date.last_end.getD (maxEnds talk_list)
  let roomNames := pyDictKeys (date.rooms.map Room.name)
  let cards := talk_list.map (fun t => (t.pk, card t w))
  headerLine roomNames w ::
    ((timeSlots global_start global_end).foldl
      (fun (acc : List Str × List Nat) t =>
        let line := dtLine cards (talksOf date.rooms) t (decide (t % 30 = 0))
          roomNames w acc.2
        (acc.1 ++ [line.1], line.2))
      ([], [])).1

/-- Model of `ScheduleView._get_table_for_date(date, col_width)`
(lines 187–238): `None` when the date has no talks, else the grid lines
joined by newlines. -/
def get_table_for_date (date : DateBucket) (w : Nat) : Option Str :=
  if talksByStart date = [] then none
  else some (joinSep ['\n'] (tableLines date w))

/-- Model of `ScheduleView._get_text_table(data, col_width)` (lines
176–185): per date, a date header line, then the grid or the fixed
`"No talks on this day.\n"` fallback. -/
def get_text_table (data : List DateBucket) (w : Nat) : Str :=
  data.foldl
    (fun acc date =>
      acc ++ '\n' :: csi ("33".data) ++ fmtDate date.start ++ csi ("0".data)
        ++ '\n' :: (match get_table_for_date date w with
                    | some table => table
                    | none => ("No talks on this day.\n".data)))
    []

/-- Normalised output format of `get_text` (lines 404–406): the `format`
query value, defaulting to `"table"`, with any unrecognized value replaced
by `"table"`. -/
def chooseFormat (fmt : Option Str) : Str :=
  let f := fmt.getD ("table".data)
  if f ≠ ("list".data) && f ≠ ("table".data) then ("table".data) else f

/-- Format dispatch of `ScheduleView.get_text` (lines 404–410): the list
renderer for `"list"`, else the table renderer at the default column width
20. The constant response preamble (event name and URLs) is outside the
rendering core and omitted. -/
def get_text (fmt : Option Str) (data : List DateBucket) : Str :=
  if chooseFormat fmt = ("list".data) then get_text_list data
  else get_text_table data 20

lemma pad_length (s : Str) (n : Nat) : (pad s n).length = max n s.length := by
  simp [pad]
  omega

lemma noEsc_append {a b : Str} (ha : noEsc a) (hb : noEsc b) : noEsc (a ++ b) := by
  simp [noEsc, List.mem_append] at *
  exact ⟨ha, hb⟩

lemma noEsc_replicate {c : Char} (n : Nat) (h : c ≠ '\x1b') :
    noEsc (List.replicate n c) := by
  simp [noEsc, List.mem_replicate]
  intro _ h2
  exact h h2.symm

lemma noEsc_take {s : Str} (h : noEsc s) (n : Nat) : noEsc (s.take n) :=
  fun hm => h (List.take_subset n s hm)

lemma noEsc_drop {s : Str} (h : noEsc s) (n : Nat) : noEsc (s.drop n) :=
  fun hm => h (List.drop_subset n s hm)

lemma noEsc_pad {s : Str} (h : noEsc s) (n : Nat) : noEsc (pad s n) :=
  noEsc_append h (noEsc_replicate _ (by decide))

lemma noEsc_pyTakeI {s : Str} (h : noEsc s) (n : Int) : noEsc (pyTakeI n s) := by
  unfold pyTakeI
  split
  · exact noEsc_take h _
  · exact noEsc_take h _

lemma visLenAux_append_noEsc (a b : Str) (h : noEsc a) :
    visLenAux (a ++ b) false = a.length + visLenAux b false := by
  induction a with
  | nil => simp
  | cons c cs ih =>
    have hc : ¬ c = '\x1b' := fun e => h (e ▸ List.mem_cons_self c cs)
    have hcs : noEsc cs := fun hm => h (List.mem_cons_of_mem c hm)
    show visLenAux (c :: (cs ++ b)) false = (c :: cs).length + visLenAux b false
    rw [visLenAux, if_neg hc, ih hcs, List.length_cons]
    omega

lemma visLenAux_true_code (code b : Str) (h : ∀ c ∈ code, c ≠ 'm') :
    visLenAux (code ++ 'm' :: b) true = visLenAux b false := by
  induction code with
  | nil =>
    show visLenAux ('m' :: b) true = visLenAux b false
    rw [visLenAux]
    norm_num
  | cons c cs ih =>
    have hc : (decide (c ≠ 'm')) = true := decide_eq_true (h c (List.mem_cons_self c cs))
    show visLenAux (c :: (cs ++ 'm' :: b)) true = visLenAux b false
    rw [visLenAux, hc]
    exact ih (fun x hx => h x (List.mem_cons_of_mem c hx))

lemma visLenAux_csi (code b : Str) (h : ∀ c ∈ code, c ≠ 'm') :
    visLenAux (csi code ++ b) false = visLenAux b false := by
  have he : csi code ++ b = '\x1b' :: '[' :: (code ++ 'm' :: b) := by
    simp [csi]
  rw [he, visLenAux, if_pos rfl, visLenAux]
  have h2 : (decide (('[' : Char) ≠ 'm')) = true := by decide
  rw [h2]
  exact visLenAux_true_code code b h

lemma visibleLen_noEsc (s : Str) (h : noEsc s) : visibleLen s = s.length := by
  have := visLenAux_append_noEsc s [] h
  simpa [visibleLen] using this

lemma visibleLen_emptyLine (w : Nat) : visibleLen (emptyLine w) = w := by
  rw [emptyLine, visibleLen_noEsc _ (noEsc_replicate _ (by decide))]
  simp

lemma chunksOfAux_le (w : Nat) (hw : w ≠ 0) (fuel : Nat) :
    ∀ word : Str, word.length ≤ fuel → ∀ l ∈ chunksOfAux w fuel word, l.length ≤ w := by
  induction fuel with
  | zero =>
    intro word hfuel l hl
    rw [chunksOfAux] at hl
    rw [List.eq_of_mem_singleton hl]
    omega
  | succ fuel ih =>
    intro word hfuel l hl
    rw [chunksOfAux] at hl
    split at hl
    · rename_i h
      rw [List.eq_of_mem_singleton hl]
      rcases h with h | h
      · exact absurd h hw
      · exact h
    · rename_i h
      rcases List.mem_cons.1 hl with rfl | hl
      · simp
      · refine ih (word.drop w) ?_ l hl
        rw [List.length_drop]
        omega

lemma chunksOf_le (w : Nat) (hw : w ≠ 0) (word : Str) :
    ∀ l ∈ chunksOf w word, l.length ≤ w :=
  chunksOfAux_le w hw word.length word (le_refl _)

lemma chunksOfAux_subset (w fuel : Nat) :
    ∀ word : Str, ∀ l ∈ chunksOfAux w fuel word, ∀ c ∈ l, c ∈ word := by
  induction fuel with
  | zero =>
    intro word l hl c hc
    rw [chunksOfAux] at hl
    exact List.eq_of_mem_singleton hl ▸ hc
  | succ fuel ih =>
    intro word l hl c hc
    rw [chunksOfAux] at hl
    split at hl
    · exact List.eq_of_mem_singleton hl ▸ hc
    · rcases List.mem_cons.1 hl with rfl | hl
      · exact List.take_subset w word hc
      · exact List.drop_subset w word (ih (word.drop w) l hl c hc)

lemma chunksOf_subset (w : Nat) (word : Str) :
    ∀ l ∈ chunksOf w word, ∀ c ∈ l, c ∈ word :=
  chunksOfAux_subset w word.length word

lemma splitWordsAux_subset (s : Str) :
    ∀ cur, ∀ word ∈ splitWordsAux s cur, ∀ c ∈ word, c ∈ s ∨ c ∈ cur := by
  induction s with
  | nil =>
    intro cur word hw c hc
    rw [splitWordsAux] at hw
    split at hw
    · simp at hw
    · rw [List.eq_of_mem_singleton hw] at hc
      exact Or.inr hc
  | cons a as ih =>
    intro cur word hw c hc
    rw [splitWordsAux] at hw
    split at hw
    · split at hw
      · rcases ih [] word hw c hc with h | h
        · exact Or.inl (List.mem_cons_of_mem a h)
        · simp at h
      · rcases List.mem_cons.1 hw with rfl | hw2
        · exact Or.inr hc
        · rcases ih [] word hw2 c hc with h | h
          · exact Or.inl (List.mem_cons_of_mem a h)
          · simp at h
    · rcases ih (cur ++ [a]) word hw c hc with h | h
      · exact Or.inl (List.mem_cons_of_mem a h)
      · rcases List.mem_append.1 h with h | h
        · exact Or.inr h
        · exact Or.inl (List.eq_of_mem_singleton h ▸ List.mem_cons_self a as)

lemma fillLines_le (w : Nat) (words : List Str) :
    ∀ cur, (∀ x ∈ words, x.length ≤ w) → cur.length ≤ w →
      ∀ l ∈ fillLines w words cur, l.length ≤ w := by
  induction words with
  | nil =>
    intro cur _ hcur l hl
    rw [fillLines] at hl
    split at hl
    · simp at hl
    · rw [List.eq_of_mem_singleton hl]
      exact hcur
  | cons word rest ih =>
    intro cur hws hcur l hl
    have hword : word.length ≤ w := hws word (List.mem_cons_self word rest)
    have hrest : ∀ x ∈ rest, x.length ≤ w :=
      fun x hx => hws x (List.mem_cons_of_mem word hx)
    rw [fillLines] at hl
    split at hl
    · exact ih word hrest hword l hl
    · split at hl
      · refine ih (cur ++ ' ' :: word) hrest ?_ l hl
        simpa using by omega
      · rcases List.mem_cons.1 hl with rfl | hl
        · exact hcur
        · exact ih word hrest hword l hl

lemma fillLines_subset (w : Nat) (words : List Str) :
    ∀ cur, ∀ l ∈ fillLines w words cur, ∀ c ∈ l,
      (∃ x ∈ words, c ∈ x) ∨ c ∈ cur ∨ c = ' ' := by
  induction words with
  | nil =>
    intro cur l hl c hc
    rw [fillLines] at hl
    split at hl
    · simp at hl
    · exact Or.inr (Or.inl (List.eq_of_mem_singleton hl ▸ hc))
  | cons word rest ih =>
    intro cur l hl c hc
    rw [fillLines] at hl
    split at hl
    · rcases ih word l hl c hc with ⟨x, hx, hcx⟩ | h | h
      · exact Or.inl ⟨x, List.mem_cons_of_mem word hx, hcx⟩
      · exact Or.inl ⟨word, List.mem_cons_self word rest, h⟩
      · exact Or.inr (Or.inr h)
    · split at hl
      · rcases ih (cur ++ ' ' :: word) l hl c hc with ⟨x, hx, hcx⟩ | h | h
        · exact Or.inl ⟨x, List.mem_cons_of_mem word hx, hcx⟩
        · rcases List.mem_append.1 h with h | h
          · exact Or.inr (Or.inl h)
          · rcases List.mem_cons.1 h with rfl | h
            · exact Or.inr (Or.inr rfl)
            · exact Or.inl ⟨word, List.mem_cons_self word rest, h⟩
        · exact Or.inr (Or.inr h)
      · rcases List.mem_cons.1 hl with rfl | hl
        · exact Or.inr (Or.inl hc)
        · rcases ih word l hl c hc with ⟨x, hx, hcx⟩ | h | h
          · exact Or.inl ⟨x, List.mem_cons_of_mem word hx, hcx⟩
          · exact Or.inl ⟨word, List.mem_cons_self word rest, h⟩
          · exact Or.inr (Or.inr h)

lemma pyWrap_le (w : Nat) (hw : w ≠ 0) (s : Str) :
    ∀ l ∈ pyWrap w s, l.length ≤ w := by
  refine fillLines_le w _ [] ?_ (by simp)
  intro x hx
  rcases List.mem_flatMap.1 hx with ⟨word, _, hchunk⟩
  exact chunksOf_le w hw word x hchunk

lemma pyWrap_subset (w : Nat) (s : Str) :
    ∀ l ∈ pyWrap w s, ∀ c ∈ l, c ∈ s ∨ c = ' ' := by
  intro l hl c hc
  rcases fillLines_subset w _ [] l hl c hc with ⟨x, hx, hcx⟩ | h | h
  · rcases List.mem_flatMap.1 hx with ⟨word, hword, hchunk⟩
    have hcw : c ∈ word := chunksOf_subset w word x hchunk c hcx
    rcases splitWordsAux_subset s [] word hword c hcw with h | h
    · exact Or.inl h
    · simp at h
  · simp at h
  · exact Or.inr h

lemma pyWrap_noEsc (w : Nat) (s : Str) (h : noEsc s) :
    ∀ l ∈ pyWrap w s, noEsc l := by
  intro l hl hc
  rcases pyWrap_subset w s l hl _ hc with h2 | h2
  · exact h h2
  · exact absurd h2 (by decide)

lemma pyTakeI_length_le_of_nonneg (n : Int) (hn : 0 ≤ n) (s : Str) :
    (pyTakeI n s).length ≤ n.toNat := by
  rw [pyTakeI, if_pos hn]
  simp

lemma pyTakeI_subset (n : Int) (s : Str) : ∀ c ∈ pyTakeI n s, c ∈ s := by
  intro c hc
  rw [pyTakeI] at hc
  split at hc
  · exact List.take_subset _ s hc
  · exact List.take_subset _ s hc

lemma noEsc_joinSep (sep : Str) (ls : List Str) (hsep : noEsc sep)
    (h : ∀ l ∈ ls, noEsc l) : noEsc (joinSep sep ls) := by
  induction ls with
  | nil => simp [joinSep, noEsc]
  | cons x rest ih =>
    cases rest with
    | nil => exact h x (List.mem_singleton.2 rfl)
    | cons y ys =>
      rw [joinSep]
      refine noEsc_append (noEsc_append (h x (List.mem_cons_self x _)) hsep) ?_
      exact ih (fun l hl => h l (List.mem_cons_of_mem x hl))

lemma noEsc_getLastD (ls : List Str) (h : ∀ l ∈ ls, noEsc l) :
    noEsc (ls.getLastD []) := by
  cases ls with
  | nil => simp [noEsc]
  | cons x rest =>
    exact h _ (List.getLast_mem (List.cons_ne_nil x rest))

lemma truncTitleLines_length (tw maxL : Nat) (tls : List Str) (h1 : 1 ≤ maxL) :
    (truncTitleLines tw maxL tls).length = min tls.length maxL := by
  rw [truncTitleLines]
  split
  · simp only [List.length_append, List.length_dropLast, List.length_take,
      List.length_singleton]
    omega
  · omega

lemma truncTitleLines_le (tw maxL : Nat) (tls : List Str) (htw : 1 ≤ tw)
    (h : ∀ l ∈ tls, l.length ≤ tw) :
    ∀ l ∈ truncTitleLines tw maxL tls, l.length ≤ tw := by
  intro l hl
  rw [truncTitleLines] at hl
  split at hl
  · rcases List.mem_append.1 hl with hl | hl
    · exact h l ((List.take_subset maxL tls) (List.dropLast_subset _ hl))
    · rw [List.eq_of_mem_singleton hl, List.length_append, List.length_singleton]
      have hn : (0 : Int) ≤ (tw : Nat) - 1 := by omega
      have := pyTakeI_length_le_of_nonneg ((tw : Nat) - 1 : Int) hn
        ((tls.take maxL).getLastD [] ++ ' ' :: joinSep [' '] (tls.drop maxL))
      omega
  · exact h l hl

lemma truncTitleLines_noEsc (tw maxL : Nat) (tls : List Str)
    (h : ∀ l ∈ tls, noEsc l) :
    ∀ l ∈ truncTitleLines tw maxL tls, noEsc l := by
  intro l hl
  rw [truncTitleLines] at hl
  split at hl
  · rcases List.mem_append.1 hl with hl | hl
    · exact h l ((List.take_subset maxL tls) (List.dropLast_subset _ hl))
    · rw [List.eq_of_mem_singleton hl]
      refine noEsc_append (fun hc => ?_) (by decide)
      have hmem := pyTakeI_subset _ _ _ hc
      rcases List.mem_append.1 hmem with hm | hm
      · exact noEsc_getLastD _ (fun x hx => h x (List.take_subset maxL tls hx)) hm
      · rcases List.mem_cons.1 hm with he | hm
        · exact absurd he (by decide)
        · exact noEsc_joinSep [' '] _ (by decide)
            (fun x hx => h x (List.drop_subset maxL tls hx)) hm
  · exact h l hl

lemma maxTitleLines_pos (h : Int) : 1 ≤ maxTitleLines h := by
  rw [maxTitleLines]
  split <;> omega

lemma cardTitleLines_length_le (t : Talk) (w : Nat) :
    (cardTitleLines t w).length ≤ maxTitleLines (heightI t) := by
  rw [cardTitleLines,
    truncTitleLines_length _ _ _ (maxTitleLines_pos (heightI t))]
  omega

lemma cardTitleLines_le (t : Talk) (w : Nat) (hw : 8 ≤ w) :
    ∀ l ∈ cardTitleLines t w, l.length ≤ w - 4 := by
  refine truncTitleLines_le _ _ _ (by omega) ?_
  exact pyWrap_le (w - 4) (by omega) (cardTitleText t)

lemma cardTitleLines_noEsc (t : Talk) (w : Nat) (h : noEsc (cardTitleText t)) :
    ∀ l ∈ cardTitleLines t w, noEsc l :=
  truncTitleLines_noEsc _ _ _ (pyWrap_noEsc (w - 4) (cardTitleText t) h)

lemma pyTruncEllipsis_length_le (s : Str) (c : Nat) (hc : 1 ≤ c) :
    (pyTruncEllipsis s c).length ≤ c := by
  rw [pyTruncEllipsis]
  split
  · rw [List.length_append, List.length_singleton]
    have hn : (0 : Int) ≤ (c : Nat) - 1 := by omega
    have := pyTakeI_length_le_of_nonneg ((c : Nat) - 1 : Int) hn s
    omega
  · omega

lemma pyTruncEllipsis_noEsc (s : Str) (c : Nat) (h : noEsc s) :
    noEsc (pyTruncEllipsis s c) := by
  rw [pyTruncEllipsis]
  split
  · refine noEsc_append (fun hc2 => h (pyTakeI_subset _ _ _ hc2)) (by decide)
  · exact h

lemma pyTruncEllipsis_nil (c : Nat) : pyTruncEllipsis [] c = [] := by
  rw [pyTruncEllipsis]
  simp

lemma cardSpeaker_ne_nil_isSome (t : Talk) (w : Nat)
    (h : cardSpeaker t w ≠ []) : t.submission.isSome = true := by
  by_contra hs
  apply h
  rw [cardSpeaker]
  have : speakerRaw t = [] := by
    rw [speakerRaw]
    cases hsub : t.submission with
    | none => rfl
    | some s => rw [hsub] at hs; simp at hs
  rw [this, pyTruncEllipsis_nil]

lemma visLenAux_two_spaces : visLenAux ("  ".data) false = 2 := rfl

lemma visibleLen_boldLine (l : Str) (tw : Nat) (hl : l.length ≤ tw)
    (h : noEsc l) : visibleLen (boldLine l tw) = tw + 4 := by
  rw [boldLine, visibleLen]
  simp only [List.append_assoc]
  rw [visLenAux_append_noEsc _ _ (by decide)]
  rw [visLenAux_csi _ _ (by decide)]
  rw [visLenAux_append_noEsc _ _ (noEsc_pad h tw)]
  rw [visLenAux_csi _ _ (by decide)]
  rw [visLenAux_two_spaces, pad_length]
  simp only [List.length_cons, List.length_nil]
  omega

lemma visibleLen_speakerLine (s : Str) (tw : Nat) (hs : s.length ≤ tw)
    (h : noEsc s) : visibleLen (speakerLine s tw) = tw + 4 := by
  rw [speakerLine, visibleLen]
  simp only [List.append_assoc]
  rw [visLenAux_append_noEsc _ _ (by decide)]
  rw [visLenAux_csi _ _ (by decide)]
  rw [visLenAux_append_noEsc _ _ (noEsc_pad h tw)]
  rw [visLenAux_csi _ _ (by decide)]
  rw [visLenAux_two_spaces, pad_length]
  simp only [List.length_cons, List.length_nil]
  omega

lemma visibleLen_joinSpeakerLine (t : Talk) (tw : Nat) (s : Str)
    (htw : 4 ≤ tw) (hs : s.length ≤ tw - 4) (hse : noEsc s)
    (hloc : (localeOf t).length = 2) (hle : noEsc (localeOf t)) :
    visibleLen (joinSpeakerLine t tw s) = tw + 4 := by
  rw [joinSpeakerLine, visibleLen]
  simp only [List.append_assoc]
  rw [visLenAux_append_noEsc _ _ (by decide)]
  rw [visLenAux_csi _ _ (by decide)]
  rw [visLenAux_append_noEsc _ _ (noEsc_pad hse (tw - 4))]
  rw [visLenAux_csi _ _ (by decide)]
  rw [visLenAux_append_noEsc _ _ (by decide)]
  rw [visLenAux_csi _ _ (by decide)]
  rw [visLenAux_append_noEsc _ _ (noEsc_pad hle 2)]
  rw [visLenAux_csi _ _ (by decide)]
  rw [visLenAux_two_spaces, pad_length, pad_length, hloc]
  simp only [List.length_cons, List.length_nil]
  omega

lemma visibleLen_localeLine (t : Talk) (tw : Nat) (htw : 2 ≤ tw)
    (hloc : (localeOf t).length = 2) (hle : noEsc (localeOf t)) :
    visibleLen (localeLine t tw) = tw + 4 := by
  rw [localeLine, visibleLen]
  simp only [List.append_assoc]
  rw [visLenAux_append_noEsc _ _ (noEsc_replicate _ (by decide))]
  rw [visLenAux_append_noEsc _ _ (by decide)]
  rw [visLenAux_csi _ _ (by decide)]
  rw [visLenAux_append_noEsc _ _ hle]
  rw [visLenAux_csi _ _ (by decide)]
  rw [visLenAux_two_spaces, hloc]
  simp only [List.length_replicate, List.length_cons, List.length_nil]
  omega

/-- C1 (amended): at any column width of at least 9, every line the card
formatter yields has displayed width (ANSI escape sequences stripped)
exactly equal to the column width, provided the talk's texts contain no
escape character and the locale is a 2-character code. -/
theorem card_visible_width (t : Talk) (w : Nat) (hw : 9 ≤ w)
    (ht : noEsc (cardTitleText t)) (hsp : noEsc (speakerRaw t))
    (hle : noEsc (localeOf t))
    (hloc : t.submission.isSome = true → (localeOf t).length = 2) :
    ∀ l ∈ card t w, visibleLen l = w := by
  intro l hl
  rw [card] at hl
  rcases List.mem_append.1 hl with hl | hl
  case inr =>
    rw [List.eq_of_mem_replicate hl]
    exact visibleLen_emptyLine w
  rw [cardContent] at hl
  rcases List.mem_append.1 hl with hl | hD
  case inr =>
    by_cases hne : cardSpeaker t w ≠ []
    · rw [if_pos hne] at hD
      have hsome := cardSpeaker_ne_nil_isSome t w hne
      cases hj : cardJoinSL t w with
      | true =>
        rw [hj, if_pos rfl] at hD
        rw [List.eq_of_mem_singleton hD]
        have hcut : cardCutoff t w = (w - 4) - 4 := by
          rw [cardCutoff, hj, if_pos rfl]
        have hs : (cardSpeaker t w).length ≤ (w - 4) - 4 := by
          rw [cardSpeaker, hcut]
          exact pyTruncEllipsis_length_le _ _ (by omega)
        rw [visibleLen_joinSpeakerLine t (w - 4) _ (by omega) hs
          (pyTruncEllipsis_noEsc _ _ hsp) (hloc hsome) hle]
        omega
      | false =>
        rw [hj, if_neg Bool.false_ne_true] at hD
        rcases List.mem_append.1 hD with h4 | h6
        · rcases List.mem_append.1 h4 with h4 | h5
          · rw [List.eq_of_mem_singleton h4]
            have hcut : cardCutoff t w = w - 4 := by
              rw [cardCutoff, hj, if_neg Bool.false_ne_true]
            have hs : (cardSpeaker t w).length ≤ w - 4 := by
              rw [cardSpeaker, hcut]
              exact pyTruncEllipsis_length_le _ _ (by omega)
            rw [visibleLen_speakerLine _ _ hs (pyTruncEllipsis_noEsc _ _ hsp)]
            omega
          · by_cases hc : 4 < heightI t - (cardTitleLines t w).length
            · rw [if_pos hc] at h5
              rw [List.eq_of_mem_singleton h5]
              exact visibleLen_emptyLine w
            · rw [if_neg hc] at h5
              simp at h5
        · rw [List.eq_of_mem_singleton h6]
          rw [visibleLen_localeLine t (w - 4) (by omega) (hloc hsome) hle]
          omega
    · rw [if_neg hne] at hD
      cases hsome : t.submission.isSome with
      | true =>
        rw [hsome, if_pos rfl] at hD
        rw [List.eq_of_mem_singleton hD]
        rw [visibleLen_localeLine t (w - 4) (by omega) (hloc hsome) hle]
        omega
      | false =>
        rw [hsome, if_neg Bool.false_ne_true] at hD
        simp at hD
  rcases List.mem_append.1 hl with hl | h3
  case inr =>
    by_cases hc : 2 < heightI t - (cardTitleLines t w).length
    · rw [if_pos hc] at h3
      rw [List.eq_of_mem_singleton h3]
      exact visibleLen_emptyLine w
    · rw [if_neg hc] at h3
      simp at h3
  rcases List.mem_append.1 hl with h1 | h2
  case inr =>
    obtain ⟨x, hx, rfl⟩ := List.mem_map.1 h2
    rw [visibleLen_boldLine x (w - 4) (cardTitleLines_le t w (by omega) x hx)
      (cardTitleLines_noEsc t w ht x hx)]
    omega
  by_cases hc : 4 < heightI t
  · rw [if_pos hc] at h1
    rw [List.eq_of_mem_singleton h1]
    exact visibleLen_emptyLine w
  · rw [if_neg hc] at h1
    simp at h1

lemma cardContent_length (t : Talk) (w : Nat) :
    (cardContent t w).length =
      (if 4 < heightI t then 1 else 0) + (cardTitleLines t w).length
      + (if 2 < heightI t - (cardTitleLines t w).length then 1 else 0)
      + (if cardSpeaker t w ≠ [] then
           (if cardJoinSL t w = true then 1
            else 2 + (if 4 < heightI t - (cardTitleLines t w).length then 1 else 0))
         else if t.submission.isSome = true then 1 else 0) := by
  rw [cardContent]
  simp only [List.length_append, List.length_map,
    apply_ite (List.length (α := Str)), List.length_singleton, List.length_nil]
  split_ifs <;> omega

lemma cardJoinSL_iff (t : Talk) (w : Nat) :
    cardJoinSL t w = true ↔
      (heightI t - (cardTitleLines t w).length ≤ 3 ∧ t.submission.isSome = true) := by
  rw [cardJoinSL]
  simp [Bool.and_eq_true]

lemma maxTitleLines_cases (h : Int) :
    (h ≤ 5 ∧ maxTitleLines h = 1) ∨ (6 ≤ h ∧ (maxTitleLines h : Int) = h - 4) := by
  rw [maxTitleLines]
  split
  · left
    omega
  · right
    omega

lemma cardContent_length_le (t : Talk) (w : Nat) (hh : 1 ≤ heightI t) :
    ((cardContent t w).length : Int) ≤ heightI t + 1 := by
  have hT := cardTitleLines_length_le t w
  have hmax := maxTitleLines_cases (heightI t)
  rw [cardContent_length]
  by_cases hsp : cardSpeaker t w ≠ []
  · have hsome := cardSpeaker_ne_nil_isSome t w hsp
    rw [if_pos hsp]
    by_cases hj : cardJoinSL t w = true
    · have hhat : heightI t - (cardTitleLines t w).length ≤ 3 :=
        ((cardJoinSL_iff t w).1 hj).1
      rw [if_pos hj]
      split_ifs <;> push_cast <;> rcases hmax with ⟨h1, h2⟩ | ⟨h1, h2⟩ <;> omega
    · have hhat : 3 < heightI t - (cardTitleLines t w).length := by
        by_contra hcon
        exact hj ((cardJoinSL_iff t w).2 ⟨by omega, hsome⟩)
      rw [if_neg hj]
      split_ifs <;> push_cast <;> rcases hmax with ⟨h1, h2⟩ | ⟨h1, h2⟩ <;> omega
  · rw [if_neg hsp]
    split_ifs <;> push_cast <;> rcases hmax with ⟨h1, h2⟩ | ⟨h1, h2⟩ <;> omega

/-- C2 (amended): for every talk whose duration is a positive multiple of 5
of at least 10 minutes, the card formatter yields exactly
`duration / 5 = height + 1` lines, at every column width. (A 5-minute talk
with a submission can yield 2 lines instead of 1; see the counterexample.) -/
theorem card_line_count (t : Talk) (w : Nat) (hdvd : 5 ∣ t.duration)
    (hd : 10 ≤ t.duration) : (card t w).length = t.duration / 5 := by
  have hh : 1 ≤ heightI t := by
    rw [heightI]
    have h5 : 2 ≤ t.duration / 5 := by omega
    omega
  have hb := cardContent_length_le t w hh
  rw [card, List.length_append, List.length_replicate]
  rw [heightI] at hb hh ⊢
  omega

/-- Fixture: the spec's end-to-end example talk (30 minutes, title
`Opening`, speaker `Ada Lovelace`, locale `en`). -/
def exTalkMain : Talk :=
  ⟨1, 540, 30, some ⟨("Opening".data), ("Ada Lovelace".data), ("en".data)⟩, [],
   ("Main Hall".data)⟩

/-- Fixture: a 20-minute talk whose card joins speaker and locale on one
line. -/
def exTalkJoin : Talk :=
  ⟨3, 540, 20, some ⟨("Hi".data), ("Ada".data), ("en".data)⟩, [], ("A".data)⟩

/-- Fixture: a 5-minute talk with a submission. -/
def exTalkShort : Talk :=
  ⟨4, 540, 5, some ⟨("Hi".data), ("Ada".data), ("en".data)⟩, [], ("A".data)⟩

/-- C1 (counterexample): at the claimed minimal column width 8, the card of
a 20-minute talk with a nonempty speaker yields a line (its joined
speaker-and-locale line) whose raw length is not 8 and whose displayed
width is not 8 either, so the width invariant fails as stated for width 8
under both readings of "length". -/
theorem card_width_cex :
    (card exTalkJoin 8).getD 1 [] ∈ card exTalkJoin 8
    ∧ ((card exTalkJoin 8).getD 1 []).length ≠ 8
    ∧ visibleLen ((card exTalkJoin 8).getD 1 []) ≠ 8 := by decide

/-- C1 (witness): the amended width theorem applied to the spec's example
talk at the default column width 20, evaluated at the card's title line. -/
theorem card_visible_width_witness :
    visibleLen ((card exTalkMain 20).getD 1 []) = 20 :=
  card_visible_width exTalkMain 20 (by decide) (by decide) (by decide) (by decide)
    (by decide) ((card exTalkMain 20).getD 1 []) (by decide)

/-- C2 (counterexample): a 5-minute talk with a submission and a nonempty
title yields 2 card lines, not `duration / 5 = 1`. -/
theorem card_height_cex :
    (card exTalkShort 20).length = 2 ∧ exTalkShort.duration / 5 = 1
    ∧ (card exTalkShort 20).length ≠ exTalkShort.duration / 5 := by decide

/-- C2 (witness): the amended height theorem applied to the spec's example
talk (30 minutes, so 6 lines). -/
theorem card_line_count_witness :
    (card exTalkMain 20).length = exTalkMain.duration / 5 :=
  card_line_count exTalkMain 20 (by decide) (by decide)

lemma joinSep_cons_of_ne (sep x : Str) (rest : List Str) (h : rest ≠ []) :
    joinSep sep (x :: rest) = x ++ sep ++ joinSep sep rest := by
  cases rest with
  | nil => exact absurd rfl h
  | cons y ys => rfl

lemma truncTitleLines_eq_of_long (tw maxL : Nat) (tls : List Str)
    (hpos : 1 ≤ maxL) (hlong : maxL < tls.length) :
    truncTitleLines tw maxL tls
      = tls.take (maxL - 1)
        ++ [pyTakeI ((tw : Nat) - 1 : Int)
              (joinSep [' '] (tls.drop (maxL - 1))) ++ ['…']] := by
  have hlt : maxL - 1 < tls.length := by omega
  have hA : (tls.take maxL).dropLast = tls.take (maxL - 1) := by
    rw [List.dropLast_eq_take, List.length_take, List.take_take]
    congr 1
    omega
  have hlast : (tls.take maxL).getLastD [] = tls[maxL - 1] := by
    rw [List.getLastD_eq_getLast?, List.getLast?_eq_getElem?, List.length_take]
    rw [show maxL ⊓ tls.length - 1 = maxL - 1 by omega]
    rw [List.getElem?_take, if_pos (by omega), List.getElem?_eq_getElem hlt]
    rfl
  have hdrop : tls.drop (maxL - 1) = tls[maxL - 1] :: tls.drop maxL := by
    have h2 := List.drop_eq_getElem_cons hlt
    rwa [show maxL - 1 + 1 = maxL by omega] at h2
  have hne2 : tls.drop maxL ≠ [] := by
    rw [ne_eq, List.drop_eq_nil_iff]
    omega
  have hjoin : joinSep [' '] (tls.drop (maxL - 1))
      = tls[maxL - 1] ++ ' ' :: joinSep [' '] (tls.drop maxL) := by
    rw [hdrop, joinSep_cons_of_ne _ _ _ hne2, List.append_assoc,
      List.singleton_append]
  rw [truncTitleLines, if_pos hlong, hA, hlast, hjoin]

/-- C6 (confirmed): when the wrapped title exceeds `max_title_lines`
(1 for height at most 5, else height - 4), the card keeps exactly
`max_title_lines` title lines: the first `max_title_lines - 1` wrapped lines
unchanged, and as last line the space-join of all remaining wrapped words,
hard-truncated to `text_width - 1` characters with a single appended
ellipsis. -/
theorem card_title_truncation (t : Talk) (w : Nat)
    (hlong : maxTitleLines (heightI t) < (pyWrap (w - 4) (cardTitleText t)).length) :
    cardTitleLines t w
      = (pyWrap (w - 4) (cardTitleText t)).take (maxTitleLines (heightI t) - 1)
        ++ [pyTakeI ((w - 4 : Nat) - 1 : Int)
              (joinSep [' ']
                ((pyWrap (w - 4) (cardTitleText t)).drop (maxTitleLines (heightI t) - 1)))
            ++ ['…']]
    ∧ (cardTitleLines t w).length = maxTitleLines (heightI t) := by
  constructor
  · rw [cardTitleLines]
    exact truncTitleLines_eq_of_long (w - 4) _ _ (maxTitleLines_pos (heightI t)) hlong
  · rw [cardTitleLines, truncTitleLines_length _ _ _ (maxTitleLines_pos (heightI t))]
    omega

/-- C6 (witness): a 10-minute talk whose title wraps to more than one line
at width 20: the card keeps one line, the space-joined remainder truncated
to 15 characters plus an ellipsis. -/
theorem card_title_truncation_witness :
    cardTitleLines ⟨7, 0, 10, some ⟨("A moderately long talk title".data),
        [], ("en".data)⟩, [], []⟩ 20
      = (pyWrap 16 ("A moderately long talk title".data)).take 0
        ++ [pyTakeI (15 : Int)
              (joinSep [' ']
                ((pyWrap 16 ("A moderately long talk title".data)).drop 0))
            ++ ['…']]
    ∧ (cardTitleLines ⟨7, 0, 10, some ⟨("A moderately long talk title".data),
        [], ("en".data)⟩, [], []⟩ 20).length = 1 :=
  card_title_truncation _ 20 (by decide)

/-- C9 (confirmed): the truncation rule of `_card` is idempotent — applying
it twice with the same limit gives the same string as applying it once, for
every string and every limit (including the degenerate limit 0, where the
Python slice `s[:-1]` makes the truncated string keep its length). -/
theorem truncation_idempotent (s : Str) (limit : Nat) :
    pyTruncEllipsis (pyTruncEllipsis s limit) limit = pyTruncEllipsis s limit := by
  by_cases h : limit < s.length
  · rcases Nat.eq_zero_or_pos limit with rfl | hpos
    · have ht : pyTruncEllipsis s 0 = s.take (s.length - 1) ++ ['…'] := by
        rw [pyTruncEllipsis, if_pos h, pyTakeI, if_neg (by omega)]
        norm_num
      have htlen : (s.take (s.length - 1)).length = s.length - 1 := by
        rw [List.length_take]
        omega
      have hlen : (pyTruncEllipsis s 0).length = s.length := by
        rw [ht, List.length_append, List.length_singleton, htlen]
        omega
      rw [pyTruncEllipsis, if_pos (by omega : 0 < (pyTruncEllipsis s 0).length)]
      rw [pyTakeI, if_neg (by omega)]
      norm_num
      rw [hlen]
      conv_lhs => rw [ht]
      rw [List.take_left' htlen, ht]
    · have hlen : (pyTruncEllipsis s limit).length = limit := by
        rw [pyTruncEllipsis, if_pos h, List.length_append, List.length_singleton,
          pyTakeI, if_pos (by omega), List.length_take]
        omega
      rw [pyTruncEllipsis, if_neg (by omega)]
  · have hs : pyTruncEllipsis s limit = s := by rw [pyTruncEllipsis, if_neg h]
    rw [hs, pyTruncEllipsis, if_neg h]

lemma pyInsert_perm (le : α → α → Bool) (a : α) (l : List α) :
    (pyInsert le a l).Perm (a :: l) := by
  induction l with
  | nil => exact List.Perm.refl _
  | cons b bs ih =>
    rw [pyInsert]
    split
    · exact List.Perm.refl _
    · exact (ih.cons b).trans (List.Perm.swap a b bs)

lemma pySortBy_perm (le : α → α → Bool) (l : List α) :
    (pySortBy le l).Perm l := by
  induction l with
  | nil => exact List.Perm.refl _
  | cons a as ih =>
    rw [pySortBy]
    exact (pyInsert_perm le a (pySortBy le as)).trans (ih.cons a)

lemma mem_pyInsert (le : α → α → Bool) (a x : α) (l : List α) :
    x ∈ pyInsert le a l ↔ x = a ∨ x ∈ l := by
  rw [(pyInsert_perm le a l).mem_iff, List.mem_cons]

lemma pyInsert_sorted (le : α → α → Bool)
    (htot : ∀ x y, le x y = true ∨ le y x = true)
    (htrans : ∀ x y z, le x y = true → le y z = true → le x z = true)
    (a : α) (l : List α) (hl : l.Pairwise (fun x y => le x y = true)) :
    (pyInsert le a l).Pairwise (fun x y => le x y = true) := by
  induction l with
  | nil => simp [pyInsert]
  | cons b bs ih =>
    rw [pyInsert]
    rcases List.pairwise_cons.1 hl with ⟨hb, hbs⟩
    split
    · rename_i hab
      refine List.pairwise_cons.2 ⟨?_, hl⟩
      intro x hx
      rcases List.mem_cons.1 hx with rfl | hx
      · exact hab
      · exact htrans a b x hab (hb x hx)
    · rename_i hab
      have hba : le b a = true := by
        rcases htot a b with h | h
        · exact absurd h hab
        · exact h
      refine List.pairwise_cons.2 ⟨?_, ih hbs⟩
      intro x hx
      rcases (mem_pyInsert le a x bs).1 hx with rfl | hx
      · exact hba
      · exact hb x hx

lemma pySortBy_sorted (le : α → α → Bool)
    (htot : ∀ x y, le x y = true ∨ le y x = true)
    (htrans : ∀ x y z, le x y = true → le y z = true → le x z = true)
    (l : List α) : (pySortBy le l).Pairwise (fun x y => le x y = true) := by
  induction l with
  | nil => simp [pySortBy]
  | cons a as ih =>
    rw [pySortBy]
    exact pyInsert_sorted le htot htrans a _ ih

lemma strLe_nil_left (t : Str) : strLe [] t = true := by
  cases t <;> rfl

lemma strLe_total : ∀ s t : Str, strLe s t = true ∨ strLe t s = true := by
  intro s
  induction s with
  | nil => exact fun t => Or.inl (strLe_nil_left t)
  | cons a as ih =>
    intro t
    cases t with
    | nil => exact Or.inr (strLe_nil_left _)
    | cons b bs =>
      show strLe (a :: as) (b :: bs) = true ∨ strLe (b :: bs) (a :: as) = true
      rw [strLe, strLe]
      split_ifs <;> first | (left; rfl) | (right; rfl) | omega | exact ih bs

lemma strLe_trans : ∀ a b c : Str, strLe a b = true → strLe b c = true →
    strLe a c = true := by
  intro a
  induction a with
  | nil => exact fun b c _ _ => strLe_nil_left c
  | cons x xs ih =>
    intro b c hab hbc
    cases b with
    | nil => rw [strLe.eq_def] at hab; simp at hab
    | cons y ys =>
      cases c with
      | nil => rw [strLe.eq_def] at hbc; simp at hbc
      | cons z zs =>
        rw [strLe] at hab hbc ⊢
        split_ifs at hab hbc ⊢ <;>
          first | rfl | omega | exact ih ys zs hab hbc

lemma pairLe_total : ∀ p q : Nat × Str, pairLe p q = true ∨ pairLe q p = true := by
  intro ⟨n, s⟩ ⟨m, t⟩
  rw [pairLe, pairLe]
  rcases Nat.lt_trichotomy n m with h | h | h
  · left
    simp [h]
  · subst h
    rcases strLe_total s t with h2 | h2 <;> simp [h2]
  · right
    simp [h]

lemma pairLe_trans : ∀ p q r : Nat × Str, pairLe p q = true → pairLe q r = true →
    pairLe p r = true := by
  intro ⟨n, s⟩ ⟨m, t⟩ ⟨k, u⟩ h1 h2
  rw [pairLe] at h1 h2 ⊢
  simp only [Bool.or_eq_true, Bool.and_eq_true, decide_eq_true_eq] at h1 h2 ⊢
  rcases h1 with h1 | ⟨rfl, h1⟩
  · rcases h2 with h2 | ⟨rfl, h2⟩
    · left; omega
    · left; exact h1
  · rcases h2 with h2 | ⟨rfl, h2⟩
    · left; exact h2
    · right; exact ⟨rfl, strLe_trans s t u h1 h2⟩

/-- C3 (amended): the per-date talk list produced by
`get_schedule_data_list` is a permutation of all the date's talks, sorted
(with ties broken stably) by the pair `(start, submission title or empty
string)`; in particular two talks at the same instant are ordered by title,
so "Alpha" precedes "Zebra" regardless of room order. The text list
renderer `_get_text_list`, by contrast, sorts by start only (see the
counterexample). -/
theorem schedule_data_list_sorted (date : DateBucket) :
    (listDateTalks date).Pairwise (fun a b => keyLe a b = true)
    ∧ (listDateTalks date).Perm (allTalks date) := by
  constructor
  · refine pySortBy_sorted keyLe ?_ ?_ (allTalks date)
    · intro x y
      exact pairLe_total (listSortKey x) (listSortKey y)
    · intro x y z h1 h2
      exact pairLe_trans _ _ _ h1 h2
  · exact pySortBy_perm keyLe (allTalks date)

/-- Fixture: talk titled `Zebra` at 09:00 in room `A`. -/
def exZebra : Talk :=
  ⟨1, 540, 30, some ⟨("Zebra".data), ("S1".data), ("en".data)⟩, [], ("A".data)⟩

/-- Fixture: talk titled `Alpha` at 09:00 in room `B`. -/
def exAlpha : Talk :=
  ⟨2, 540, 30, some ⟨("Alpha".data), ("S2".data), ("en".data)⟩, [], ("B".data)⟩

/-- Fixture: a date whose first room holds `Zebra` and whose second room
holds `Alpha`, both at 09:00. -/
def exDatePair : DateBucket :=
  ⟨⟨2026, 1, 2⟩, none, none, [⟨("A".data), [exZebra]⟩, ⟨("B".data), [exAlpha]⟩]⟩

/-- C3 (counterexample): the text list renderer does not sort by
`(start, title)` — at equal start instants it keeps room order, printing
`Zebra` before `Alpha`, so its output differs from the rendering that sorts
by the pair as the claim states. -/
theorem text_list_sort_cex :
    get_text_list [exDatePair] ≠ get_text_list_byPair [exDatePair]
    ∧ (talksByStart exDatePair).map Talk.pk = [1, 2]
    ∧ (listDateTalks exDatePair).map Talk.pk = [2, 1] := by decide

/-- Fixture: a date bucket with one room and no talks. -/
def exDateEmpty : DateBucket := ⟨⟨2026, 1, 2⟩, none, none, [⟨("A".data), []⟩]⟩

/-- C4 (counterexample): for a date bucket with no talks the text list
renderer outputs the empty string — not the fixed no-talks line. -/
theorem empty_day_list_cex :
    get_text_list [exDateEmpty] = []
    ∧ get_text_list [exDateEmpty] ≠ ("No talks on this day.\n".data) := by decide

/-- C4 (amended): in the table format, a date bucket whose rooms have no
talks renders the date header followed by exactly the fixed line
`"No talks on this day.\n"` — never an empty string, and the (total)
rendering function cannot fail. The list format instead renders such a date
as the empty string (see the counterexample). -/
theorem empty_day_table_message (date : DateBucket) (w : Nat)
    (h : ∀ r ∈ date.rooms, r.talks = []) :
    get_text_table [date] w
      = '\n' :: csi ("33".data) ++ fmtDate date.start ++ csi ("0".data)
        ++ '\n' :: ("No talks on this day.\n".data) := by
  have htalks : allTalks date = [] := by
    rw [allTalks, List.flatMap_eq_nil_iff]
    exact h
  have hsorted : talksByStart date = [] := by
    rw [talksByStart, htalks]
    rfl
  rw [get_text_table]
  simp only [List.foldl_cons, List.foldl_nil]
  rw [get_table_for_date, if_pos hsorted]
  simp

/-- C4 (witness): the amended empty-day theorem applied to a concrete
one-room, zero-talk date at the default width. -/
theorem empty_day_table_message_witness :
    get_text_table [exDateEmpty] 20
      = '\n' :: csi ("33".data) ++ fmtDate exDateEmpty.start ++ csi ("0".data)
        ++ '\n' :: ("No talks on this day.\n".data) :=
  empty_day_table_message exDateEmpty 20 (by decide)

/-- C5 (confirmed): the two running-talk overrides of `_get_line_parts`
take priority over the generic separator table: a running talk on the left
with a start/end event on the right forces the left-T junction `├`, and
otherwise a running talk on the right with a start/end event on the left
forces the right-T junction `┤`, whatever the other flags and fill
character are. -/
theorem line_parts_overrides (s1 s2 e1 e2 r1 r2 : Bool) (fill : Char) :
    (r1 = true → (s2 || e2) = true →
        get_line_parts s1 s2 e1 e2 r1 r2 fill = [['├']])
    ∧ ((r1 && (s2 || e2)) = false → r2 = true → (s1 || e1) = true →
        get_line_parts s1 s2 e1 e2 r1 r2 fill = [['┤']]) := by
  constructor
  · intro h1 h2
    rw [get_line_parts, if_pos (by rw [h1, h2]; rfl)]
  · intro h0 h1 h2
    rw [get_line_parts, if_neg (by rw [h0]; exact Bool.false_ne_true),
      if_pos (by rw [h1, h2]; rfl)]

/-- C5 (witness): both overrides applied at concrete flag combinations. -/
theorem line_parts_overrides_witness :
    get_line_parts false false false true true false ' ' = [['├']]
    ∧ get_line_parts true false false false false true ' ' = [['┤']] :=
  ⟨(line_parts_overrides false false false true true false ' ').1 rfl rfl,
   (line_parts_overrides true false false false false true ' ').2 rfl rfl rfl⟩

/-- Rendering of the header row following the spec's words, for comparison
with `headerLine`: each room name both truncated and padded to
`column_width - 2`. -/
def headerLineSpecTrunc (rooms : List Str) (w : Nat) : Str :=
  ("        | ".data)
    ++ joinSep (" | ".data) (rooms.map (fun r => pad (r.take (w - 2)) (w - 2)))

/-- Fixture: a 19-character room name, longer than the default header cell
width 18. -/
def exLongRoom : Str := ("0123456789abcdefghi".data)

/-- C7 (counterexample): at the default column width 20, a 19-character
room name is not truncated to 18 characters — the header differs from the
truncating rendering the claim describes, and the name's header cell is 19
characters wide, widening the row. -/
theorem header_truncation_cex :
    headerLine [exLongRoom] 20 ≠ headerLineSpecTrunc [exLongRoom] 20
    ∧ (pad exLongRoom 18).length = 19 := by decide

/-- C7 (amended): the header row is the 8-character time gutter plus `"| "`,
followed by the room names each left-padded — but never truncated — to
`column_width - 2` and joined by `" | "`: a header cell is exactly
`max (column_width - 2) (name length)` characters wide, so names of at most
`column_width - 2` characters give cells of exactly that width, while a
longer name widens its cell. The header is the first line of the table. -/
theorem header_row_padding (rooms : List Str) (w : Nat) :
    headerLine rooms w
      = ("        | ".data)
        ++ joinSep (" | ".data)
            (rooms.map (fun r => r ++ List.replicate ((w - 2) - r.length) ' '))
    ∧ rooms.map (fun r => (pad r (w - 2)).length)
      = rooms.map (fun r => max (w - 2) r.length)
    ∧ ∀ date : DateBucket,
        (tableLines date w).headD []
          = headerLine (pyDictKeys (date.rooms.map Room.name)) w := by
  refine ⟨rfl, ?_, fun date => rfl⟩
  simp [pad_length]

/-- C8 (confirmed): the text endpoint renders the list format exactly when
the `format` query value is the string `"list"`; any other value —
including `"table"`, an unrecognized string, or an absent parameter — is
normalised to `"table"` and renders the table format at the default column
width 20. -/
theorem get_text_format_selection (fmt : Option Str) (data : List DateBucket) :
    get_text fmt data =
      if fmt = some ("list".data) then get_text_list data
      else get_text_table data 20 := by
  rw [get_text]
  rcases fmt with _ | f
  · rw [show chooseFormat none = ("table".data) from by decide,
      if_neg (by decide), if_neg (by simp)]
  · by_cases hf : f = ("list".data)
    · subst hf
      rw [show chooseFormat (some ("list".data)) = ("list".data) from by decide,
        if_pos rfl, if_pos rfl]
    · have hcf : chooseFormat (some f) ≠ ("list".data) := by
        rw [chooseFormat]
        show (if _ then _ else f) ≠ _
        split
        · decide
        · exact hf
      rw [if_neg hcf, if_neg (fun hc => hf (Option.some_injective _ hc))]

lemma digitChar_ne_newline (n : Nat) : Nat.digitChar n ≠ '\n' := by
  rcases Nat.lt_or_ge n 16 with h | h
  · interval_cases n <;> decide
  · have h0 : ¬ n = 0 := by omega
    have h1 : ¬ n = 1 := by omega
    have h2 : ¬ n = 2 := by omega
    have h3 : ¬ n = 3 := by omega
    have h4 : ¬ n = 4 := by omega
    have h5 : ¬ n = 5 := by omega
    have h6 : ¬ n = 6 := by omega
    have h7 : ¬ n = 7 := by omega
    have h8 : ¬ n = 8 := by omega
    have h9 : ¬ n = 9 := by omega
    have ha : ¬ n = 0xa := by omega
    have hb : ¬ n = 0xb := by omega
    have hc : ¬ n = 0xc := by omega
    have hd : ¬ n = 0xd := by omega
    have he : ¬ n = 0xe := by omega
    have hf : ¬ n = 0xf := by omega
    unfold Nat.digitChar
    rw [if_neg h0, if_neg h1, if_neg h2, if_neg h3, if_neg h4, if_neg h5,
      if_neg h6, if_neg h7, if_neg h8, if_neg h9, if_neg ha, if_neg hb,
      if_neg hc, if_neg hd, if_neg he, if_neg hf]
    decide

lemma newline_not_mem_twoDigits (k : Nat) : '\n' ∉ twoDigits k := by
  intro hmem
  rcases List.mem_cons.1 hmem with h | hmem
  · exact digitChar_ne_newline _ h.symm
  rcases List.mem_cons.1 hmem with h | hmem
  · exact digitChar_ne_newline _ h.symm
  · simp at hmem

lemma newline_not_mem_fmtHM (m : Nat) : '\n' ∉ fmtHM m := by
  intro hmem
  rcases List.mem_append.1 hmem with h | h
  · exact newline_not_mem_twoDigits _ h
  rcases List.mem_cons.1 h with h | h
  · exact absurd h (by decide)
  · exact newline_not_mem_twoDigits _ h

/-- C10 (confirmed): in the text list renderer, the entry of a talk with a
submission always ends with a newline, while the entry of a break (no
submission) contains no newline at all when its description and room name
contain none — so a break's line and the following entry end up on the same
output line of the concatenated result. -/
theorem list_entry_newline (t1 t2 : Talk) (h1 : t1.submission.isSome = true)
    (h2 : t2.submission = none) (hr : '\n' ∉ t2.roomName)
    (hd : '\n' ∉ t2.description) :
    (listEntry t1).getLast? = some '\n' ∧ '\n' ∉ listEntry t2 := by
  constructor
  · rcases hs : t1.submission with _ | sub
    · rw [hs] at h1
      simp at h1
    · rw [listEntry, hs]
      rw [← List.append_assoc]
      exact List.getLast?_concat _
  · rw [listEntry, h2]
    intro hmem
    rcases List.mem_append.1 hmem with h | h
    case inr =>
      rcases List.mem_append.1 h with h | h
      · rcases List.mem_append.1 h with h | h
        · exact hd h
        · exact absurd h (by decide)
      · exact hr h
    rcases List.mem_append.1 h with h | h
    case inr =>
      rcases List.mem_cons.1 h with h | h
      · exact absurd h (by decide)
      · simp at h
    rcases List.mem_append.1 h with h | h
    case inr =>
      exact absurd h (by decide)
    rcases List.mem_append.1 h with h | h
    case inr =>
      exact newline_not_mem_fmtHM _ h
    rcases List.mem_append.1 h with h | h
    · exact absurd h (by decide)
    · exact absurd h (by decide)

/-- Fixture: a break (talk without submission) described `Coffee` in room
`A`. -/
def exBreak : Talk := ⟨5, 540, 10, none, ("Coffee".data), ("A".data)⟩

/-- C10 (witness): the newline theorem applied to the `Zebra` talk and the
`Coffee` break. -/
theorem list_entry_newline_witness :
    (listEntry exZebra).getLast? = some '\n' ∧ '\n' ∉ listEntry exBreak :=
  list_entry_newline exZebra exBreak (by decide) (by decide) (by decide) (by decide)
